import Mathlib

/-!
Verification of the utility library of `Uncertainty-Aware-Adapter`
(`src/utils.py`): the Generalized Energy Distance metric (`iou`,
`distance`, `calc_generalised_energy_distance`,
`generalized_energy_distance`), point-prompt sampling
(`generate_click_prompt`), box sampling (`random_box`), truncated-normal
initialization (`truncated_normal_`) and `l2_regularisation`.

Tensors are shallowly embedded as nested lists; real arithmetic is exact
rational arithmetic (`ℚ`); random draws are explicit parameters.
-/

namespace Utils

/-! ### One-hot label maps and `iou` (utils.py lines 222-226)

A one-hot map is a pixel-major list of rows of length `num_classes`
(the flattened `(H*W, classes)` boolean array of the python code). -/

abbrev OneHotMap := List (List Bool)

/-- The `smooth = 1e-8` constant of `iou`. -/
def smooth : ℚ := 1 / 100000000

/-- Column `c` of a one-hot map: the boolean per-pixel indicator of class `c`. -/
def classCol (m : OneHotMap) (c : ℕ) : List Bool :=
  m.map (fun row => row.getD c false)

/-- `(x & y).sum(axis=-2)` restricted to class `c`. -/
def interCount (a b : OneHotMap) (c : ℕ) : ℕ :=
  (List.zipWith (fun p q => p && q) (classCol a c) (classCol b c)).count true

/-- `(x | y).sum(axis=-2)` restricted to class `c`. -/
def unionCount (a b : OneHotMap) (c : ℕ) : ℕ :=
  (List.zipWith (fun p q => p || q) (classCol a c) (classCol b c)).count true

/-- One entry of `iou(x, y, axis=-2)`: intersection over union-plus-smooth
for class `c`.  The `if`-branch embeds `iou_[np.isnan(iou_)] = 1.0`: a NaN
can only arise from `0/0`, i.e. when the denominator is zero (in which
case the numerator, bounded by it, is zero as well). -/
def iouClass (a b : OneHotMap) (c : ℕ) : ℚ :=
  if (unionCount a b c : ℚ) + smooth = 0 then 1
  else (interCount a b c : ℚ) / ((unionCount a b c : ℚ) + smooth)

/-- The length-`C` class axis of `iou` for one pair of maps. -/
def iouAll (a b : OneHotMap) (C : ℕ) : List ℚ :=
  (List.range C).map (iouClass a b)

/-- `iou(x[:, None], y[None, :], axis=-2)`: the `(M, N, C)` array of
per-pair, per-class IoU values (full broadcast path of `distance`). -/
def perClassIoU (x y : List OneHotMap) (C : ℕ) : List (List (List ℚ)) :=
  x.map (fun a => y.map (fun b => iouAll a b C))

/-- The chunked fallback path of `distance`: one row of the broadcast per
element of `x`, concatenated (`np.concatenate(per_class_iou)`). -/
def perClassIoUChunked (x y : List OneHotMap) (C : ℕ) : List (List (List ℚ)) :=
  (x.map (fun x_ => perClassIoU [x_] y C)).flatten

/-- `np.mean` of a flat list: sum divided by length. -/
def meanQ (l : List ℚ) : ℚ := l.sum / (l.length : ℚ)

/-- `1.0 - v[1:].mean()` applied to one class vector. -/
def distEntryOf (v : List ℚ) : ℚ := 1 - meanQ (v.drop 1)

/-- `distance(x, y)` (utils.py lines 229-240), full broadcast path:
`1.0 - per_class_iou[..., 1:].mean(-1)`. -/
def distance (x y : List OneHotMap) (C : ℕ) : List (List ℚ) :=
  (perClassIoU x y C).map (fun row => row.map distEntryOf)

/-- `distance(x, y)` computed through the `MemoryError` fallback path. -/
def distanceChunked (x y : List OneHotMap) (C : ℕ) : List (List ℚ) :=
  (perClassIoUChunked x y C).map (fun row => row.map distEntryOf)

/-- Modelled from the spec sentence for `distance` (an independent
rendering of its words, for comparison with the code): "compute pairwise
IoU between every pair across the two collections, restricted to all
non-background classes (class index ≥ 1), averaged over those classes,
then define distance = 1 − average IoU". -/
def distanceSpec (x y : List OneHotMap) (C : ℕ) : List (List ℚ) :=
  x.map (fun a => y.map (fun b =>
    1 - meanQ ((List.range' 1 (C - 1)).map (iouClass a b))))

/-- Arbitrary modification of the background column of a map (flip every
class-0 bit), used to state that class 0 never contributes. -/
def flipBg (m : OneHotMap) : OneHotMap :=
  m.map (fun row =>
    match row with
    | [] => []
    | a :: r => (!a) :: r)

/-! ### `calc_generalised_energy_distance` (lines 242-262) and
`generalized_energy_distance` (lines 264-283) -/

/-- `np.eye(num_classes)[v].astype('bool')` for one pixel value. -/
def oneHot (C : ℕ) (v : ℕ) : List Bool :=
  (List.range C).map (fun c => c == v)

/-- One-hot encode a collection of flattened integer class maps. -/
def encode (C : ℕ) (d : List (List ℕ)) : List OneHotMap :=
  d.map (fun m => m.map (oneHot C))

/-- `np.mean` of a 2-D array. -/
def meanMat (m : List (List ℚ)) : ℚ := meanQ m.flatten

/-- `calc_generalised_energy_distance(dist_0, dist_1, num_classes)`:
the triple `(cross_distance, distance_0, distance_1)`.  The maps arrive
already flattened to `(count, H*W)` integer class indices. -/
def calc_generalised_energy_distance (d0 d1 : List (List ℕ)) (C : ℕ) :
    ℚ × ℚ × ℚ :=
  let e0 := encode C d0
  let e1 := encode C d1
  (meanMat (distance e0 e1 C), meanMat (distance e0 e0 C),
    meanMat (distance e1 e1 C))

/-- `(preds > thresh)` followed by the integer cast inside
`calc_generalised_energy_distance`. -/
def thresholdMap (thresh : ℚ) (s : List (List ℚ)) : List (List ℕ) :=
  s.map (fun p => p.map (fun q => if thresh < q then 1 else 0))

/-- `generalized_energy_distance(labels, preds, thresh, num_classes)`:
per batch element `2*cross - d_0 - d_1`, averaged over the batch. -/
def generalized_energy_distance (labels : List (List (List ℕ)))
    (preds : List (List (List ℚ))) (thresh : ℚ) (C : ℕ) : ℚ :=
  let binPreds := preds.map (thresholdMap thresh)
  let batchGed := List.zipWith (fun l p =>
    let t := calc_generalised_energy_distance l p C
    2 * t.1 - t.2.1 - t.2.2) labels binPreds
  meanQ batchGed

/-! ### Supporting lemmas for the GED claims -/

theorem range_drop_one (C : ℕ) : (List.range C).drop 1 = List.range' 1 (C - 1) := by
  cases C with
  | zero => rfl
  | succ n =>
    rw [List.range_eq_range', List.range'_succ]
    rfl

theorem iouAll_drop_one (a b : OneHotMap) (C : ℕ) :
    (iouAll a b C).drop 1 = (List.range' 1 (C - 1)).map (iouClass a b) := by
  rw [iouAll, ← List.map_drop, range_drop_one]

theorem classCol_flipBg (m : OneHotMap) (c : ℕ) (hc : 1 ≤ c) :
    classCol (flipBg m) c = classCol m c := by
  unfold classCol flipBg
  rw [List.map_map]
  apply List.map_congr_left
  intro row _
  cases row with
  | nil => rfl
  | cons a r =>
    cases c with
    | zero => omega
    | succ n => simp [List.getD]

theorem iouClass_flipBg (a b : OneHotMap) (c : ℕ) (hc : 1 ≤ c) :
    iouClass (flipBg a) (flipBg b) c = iouClass a b c := by
  unfold iouClass interCount unionCount
  rw [classCol_flipBg a c hc, classCol_flipBg b c hc]

/-! ### Claim theorems: C1, C2, C5 -/

/-- C1 (code bug): for a non-background class absent from both maps
(empty union) the code yields IoU similarity `0`, not `1.0`: the smooth
term makes the denominator `1e-8`, so `0 / 1e-8 = 0` and the
NaN-replacement never fires.  On two one-pixel maps whose pixel is class
0, the class-1 IoU is `0` and the resulting distance entry is `1`, where
the claim expects similarity `1.0` and distance `0`. -/
theorem iou_empty_union_gives_zero :
    iouClass [[true, false]] [[true, false]] 1 = 0 ∧
    distance [[[true, false]]] [[[true, false]]] 2 = [[1]] := by
  have hu : unionCount [[true, false]] [[true, false]] 1 = 0 := rfl
  have hi : interCount [[true, false]] [[true, false]] 1 = 0 := rfl
  constructor
  · rw [iouClass, hu, hi]
    norm_num [smooth]
  · simp [distance, perClassIoU, iouAll, distEntryOf, meanQ, List.range_succ,
      iouClass, hu, hi]
    norm_num [smooth]

theorem distance_entrywise (x y : List OneHotMap) (C : ℕ) :
    distance x y C
      = x.map (fun a => y.map (fun b => distEntryOf (iouAll a b C))) := by
  unfold distance perClassIoU
  rw [List.map_map]
  simp [Function.comp_def, List.map_map]

/-- C2: `distance` equals the spec formula that averages the per-class
IoU over the non-background classes `1 ≤ c < C` only, and its value is
unchanged by arbitrary modification of the background (class-0) column of
every map: class index 0 never contributes. -/
theorem distance_excludes_background (x y : List OneHotMap) (C : ℕ) :
    distance x y C = distanceSpec x y C ∧
    distance (x.map flipBg) (y.map flipBg) C = distance x y C := by
  constructor
  · rw [distance_entrywise, distanceSpec]
    apply List.map_congr_left
    intro a _
    apply List.map_congr_left
    intro b _
    rw [distEntryOf, iouAll_drop_one]
  · rw [distance_entrywise, distance_entrywise, List.map_map]
    apply List.map_congr_left
    intro a _
    simp only [Function.comp_def, List.map_map]
    apply List.map_congr_left
    intro b _
    rw [distEntryOf, distEntryOf, iouAll_drop_one, iouAll_drop_one]
    have hmap : (List.range' 1 (C - 1)).map (iouClass (flipBg a) (flipBg b))
        = (List.range' 1 (C - 1)).map (iouClass a b) := by
      apply List.map_congr_left
      intro c hc
      exact iouClass_flipBg a b c (List.mem_range'_1.mp hc).1
    rw [hmap]

/-- C5: the chunked fallback path of `distance` (per-element rows of the
pairwise IoU broadcast, concatenated) yields exactly the same result as
the full broadcast path. -/
theorem distance_chunked_eq (x y : List OneHotMap) (C : ℕ) :
    distanceChunked x y C = distance x y C := by
  unfold distanceChunked distance
  congr 1
  induction x with
  | nil => rfl
  | cons a l ih =>
    simp only [perClassIoUChunked, List.map_cons, List.flatten_cons] at ih ⊢
    rw [ih]
    simp [perClassIoU]

/-! ### Claim C3: GED of identical distributions -/

/-- Per-pixel cast of an integer class map to the rational tensor fed to
`generalized_energy_distance` as predictions. -/
def toRat (v : ℕ) : ℚ := v

/-- The (1,2,4,4) example of the spec: one batch element, two identical
binary 4×4 masks (flattened to 16 pixels). -/
def demoLabels : List (List (List ℕ)) :=
  [[[0, 0, 0, 0, 0, 1, 1, 0, 0, 1, 1, 0, 0, 0, 0, 0],
    [0, 0, 0, 0, 0, 1, 1, 0, 0, 1, 1, 0, 0, 0, 0, 0]]]

theorem threshold_cast_eq (m : List ℕ) (hm : ∀ v ∈ m, v ≤ 1) :
    (m.map toRat).map (fun q => if 1 / 2 < q then 1 else 0) = m := by
  induction m with
  | nil => rfl
  | cons v t ih =>
    simp only [List.map_cons, List.cons.injEq]
    constructor
    · have hv := hm v (List.mem_cons_self v t)
      interval_cases v
      · norm_num [toRat]
      · norm_num [toRat]
    · exact ih (fun w hw => hm w (List.mem_cons_of_mem v hw))

theorem thresholdMap_cast_eq (s : List (List ℕ)) (hs : ∀ m ∈ s, ∀ v ∈ m, v ≤ 1) :
    thresholdMap (1 / 2) (s.map (fun m => m.map toRat)) = s := by
  unfold thresholdMap
  rw [List.map_map]
  conv_rhs => rw [← List.map_id s]
  apply List.map_congr_left
  intro m hm
  exact threshold_cast_eq m (hs m hm)

/-- C3: when prediction equals ground truth (binary labels, preds the
same maps, threshold 1/2), `calc_generalised_energy_distance` returns
equal `cross_distance`, `distance_0` and `distance_1`, and
`generalized_energy_distance` returns exactly 0. -/
theorem ged_identical_zero (labels : List (List (List ℕ)))
    (hbin : ∀ s ∈ labels, ∀ m ∈ s, ∀ v ∈ m, v ≤ 1) :
    (∀ (l : List (List ℕ)) (C : ℕ),
      (calc_generalised_energy_distance l l C).1
        = (calc_generalised_energy_distance l l C).2.1 ∧
      (calc_generalised_energy_distance l l C).1
        = (calc_generalised_energy_distance l l C).2.2) ∧
    generalized_energy_distance labels
      (labels.map (fun s => s.map (fun m => m.map toRat)))
      (1 / 2) 2 = 0 := by
  constructor
  · intro l C
    exact ⟨rfl, rfl⟩
  · simp only [generalized_energy_distance]
    rw [List.map_map]
    have hbp : labels.map
        (thresholdMap (1 / 2) ∘ fun s => s.map (fun m => m.map toRat))
        = labels := by
      conv_rhs => rw [← List.map_id labels]
      apply List.map_congr_left
      intro s hs
      exact thresholdMap_cast_eq s (hbin s hs)
    rw [hbp, List.zipWith_same]
    have hzero : labels.map (fun l =>
        let t := calc_generalised_energy_distance l l 2
        2 * t.1 - t.2.1 - t.2.2) = labels.map (fun _ => (0 : ℚ)) := by
      apply List.map_congr_left
      intro l _
      show 2 * (calc_generalised_energy_distance l l 2).1
          - (calc_generalised_energy_distance l l 2).2.1
          - (calc_generalised_energy_distance l l 2).2.2 = 0
      have h1 : (calc_generalised_energy_distance l l 2).2.1
          = (calc_generalised_energy_distance l l 2).1 := rfl
      have h2 : (calc_generalised_energy_distance l l 2).2.2
          = (calc_generalised_energy_distance l l 2).1 := rfl
      rw [h1, h2]
      ring
    rw [hzero]
    simp [meanQ, List.map_const', List.sum_replicate]

/-- Witness for C3 at the spec's concrete (1,2,4,4) example. -/
theorem ged_identical_zero_witness :
    generalized_energy_distance demoLabels
      (demoLabels.map (fun s => s.map (fun m => m.map toRat)))
      (1 / 2) 2 = 0 :=
  (ged_identical_zero demoLabels (by decide)).2

/-! ### Claim C4: `distance(x, x)` on the diagonal -/

theorem zipWith_and_self (l : List Bool) :
    List.zipWith (fun p q => p && q) l l = l := by
  induction l with
  | nil => rfl
  | cons a t ih => simp [ih]

theorem zipWith_or_self (l : List Bool) :
    List.zipWith (fun p q => p || q) l l = l := by
  induction l with
  | nil => rfl
  | cons a t ih => simp [ih]

theorem interCount_self (a : OneHotMap) (c : ℕ) :
    interCount a a c = unionCount a a c := by
  unfold interCount unionCount
  rw [zipWith_and_self, zipWith_or_self]

theorem smooth_pos : (0 : ℚ) < smooth := by norm_num [smooth]

theorem iouClass_self (a : OneHotMap) (c : ℕ) :
    iouClass a a c
      = (unionCount a a c : ℚ) / ((unionCount a a c : ℚ) + smooth) := by
  unfold iouClass
  rw [interCount_self]
  rw [if_neg]
  have h1 : (0 : ℚ) ≤ (unionCount a a c : ℚ) := Nat.cast_nonneg _
  have h2 := smooth_pos
  intro h
  linarith

theorem iou_self_term_bounds (a : OneHotMap) (c : ℕ)
    (h : 1 ≤ unionCount a a c) :
    1 / (1 + smooth) ≤ iouClass a a c ∧ iouClass a a c < 1 := by
  rw [iouClass_self]
  have hu : (1 : ℚ) ≤ (unionCount a a c : ℚ) := by exact_mod_cast h
  have hs := smooth_pos
  have hpos : (0 : ℚ) < (unionCount a a c : ℚ) + smooth := by linarith
  have hpos1 : (0 : ℚ) < 1 + smooth := by linarith
  constructor
  · rw [div_le_div_iff₀ hpos1 hpos]
    have := mul_le_mul_of_nonneg_right hu hs.le
    linarith
  · rw [div_lt_one hpos]
    linarith

theorem distance_diag_entry (x : List OneHotMap) (C i : ℕ) (hi : i < x.length) :
    ((distance x x C).getD i []).getD i 0
      = distEntryOf (iouAll (x.getD i []) (x.getD i []) C) := by
  rw [distance_entrywise]
  have h1 : i < (x.map (fun a => x.map (fun b => distEntryOf (iouAll a b C)))).length := by
    simpa using hi
  rw [List.getD_eq_getElem _ [] h1, List.getElem_map]
  have h2 : i < (x.map (fun b => distEntryOf (iouAll (x[i]) b C))).length := by
    simpa using hi
  rw [List.getD_eq_getElem _ 0 h2, List.getElem_map]
  rw [List.getD_eq_getElem x [] hi]

/-- C4 (amended): a diagonal entry of `distance(x, x)` whose map contains
every non-background class is strictly positive yet smaller than the
smooth constant `1e-8` — near zero, but never exactly 0, because
self-IoU is `u/(u + 1e-8) < 1`. -/
theorem distance_self_diag_small (x : List OneHotMap) (C i : ℕ)
    (hi : i < x.length) (hC : 2 ≤ C)
    (hcls : ∀ c, 1 ≤ c → c < C → 1 ≤ unionCount (x.getD i []) (x.getD i []) c) :
    0 < ((distance x x C).getD i []).getD i 0 ∧
    ((distance x x C).getD i []).getD i 0 < smooth := by
  rw [distance_diag_entry x C i hi]
  rw [distEntryOf, iouAll_drop_one]
  have hmem : ∀ c ∈ List.range' 1 (C - 1), 1 ≤ c ∧ c < C := by
    intro c hc
    have := List.mem_range'_1.mp hc
    omega
  have hlen : (List.range' 1 (C - 1)).length = C - 1 := List.length_range' _ _ _
  have hone : 1 ∈ List.range' 1 (C - 1) := by
    rw [List.mem_range'_1]
    omega
  have hupper : ((List.range' 1 (C - 1)).map
      (iouClass (x.getD i []) (x.getD i []))).sum < ((C - 1 : ℕ) : ℚ) := by
    have h := List.sum_lt_sum (l := List.range' 1 (C - 1))
      (iouClass (x.getD i []) (x.getD i [])) (fun _ => (1 : ℚ))
      (fun c hc => ((iou_self_term_bounds _ c
        (hcls c (hmem c hc).1 (hmem c hc).2)).2).le)
      ⟨1, hone, (iou_self_term_bounds _ 1
        (hcls 1 le_rfl (by omega))).2⟩
    calc ((List.range' 1 (C - 1)).map (iouClass (x.getD i []) (x.getD i []))).sum
        < ((List.range' 1 (C - 1)).map (fun _ => (1 : ℚ))).sum := h
      _ = ((C - 1 : ℕ) : ℚ) := by
          rw [List.map_const', List.sum_replicate, hlen, nsmul_eq_mul, mul_one]
  have hlower : ((C - 1 : ℕ) : ℚ) * (1 / (1 + smooth))
      ≤ ((List.range' 1 (C - 1)).map
        (iouClass (x.getD i []) (x.getD i []))).sum := by
    have h := List.sum_le_sum (l := List.range' 1 (C - 1))
      (f := fun _ => (1 : ℚ) / (1 + smooth))
      (g := iouClass (x.getD i []) (x.getD i []))
      (fun c hc => (iou_self_term_bounds _ c
        (hcls c (hmem c hc).1 (hmem c hc).2)).1)
    calc ((C - 1 : ℕ) : ℚ) * (1 / (1 + smooth))
        = ((List.range' 1 (C - 1)).map (fun _ => (1 : ℚ) / (1 + smooth))).sum := by
          rw [List.map_const', List.sum_replicate, hlen, nsmul_eq_mul]
      _ ≤ _ := h
  rw [meanQ, List.length_map, hlen]
  have hn : (0 : ℚ) < ((C - 1 : ℕ) : ℚ) := by
    have : 1 ≤ C - 1 := by omega
    exact_mod_cast Nat.lt_of_lt_of_le Nat.zero_lt_one this
  set S := ((List.range' 1 (C - 1)).map
    (iouClass (x.getD i []) (x.getD i []))).sum with hS
  constructor
  · have : S / ((C - 1 : ℕ) : ℚ) < 1 := (div_lt_one hn).mpr hupper
    linarith
  · have hk : (1 : ℚ) / (1 + smooth) ≤ S / ((C - 1 : ℕ) : ℚ) := by
      rw [le_div_iff₀ hn]
      calc (1 : ℚ) / (1 + smooth) * ((C - 1 : ℕ) : ℚ)
          = ((C - 1 : ℕ) : ℚ) * (1 / (1 + smooth)) := by ring
        _ ≤ S := hlower
    have hfinal : (1 : ℚ) - 1 / (1 + smooth) < smooth := by
      rw [smooth]
      norm_num
    linarith

/-- Witness for C4 at a one-pixel class-1 map: the diagonal entry of
`distance(x, x)` is strictly between 0 and `1e-8`. -/
theorem distance_self_diag_small_witness :
    0 < ((distance [[[false, true]]] [[[false, true]]] 2).getD 0 []).getD 0 0 ∧
    ((distance [[[false, true]]] [[[false, true]]] 2).getD 0 []).getD 0 0 < smooth :=
  distance_self_diag_small [[[false, true]]] 2 0 (by decide) (by decide)
    (by
      intro c h1 h2
      interval_cases c
      decide)

/-- C4 (counterexample): `distance(x, x)` at a non-degenerate diagonal
entry is not 0 — for the one-pixel class-1 map it is `1/100000001`. -/
theorem distance_self_diag_ne_zero :
    ((distance [[[true, false], [false, true]]]
        [[[true, false], [false, true]]] 2).getD 0 []).getD 0 0 ≠ 0 := by
  have hu : unionCount [[true, false], [false, true]]
      [[true, false], [false, true]] 1 = 1 := rfl
  have hi : interCount [[true, false], [false, true]]
      [[true, false], [false, true]] 1 = 1 := rfl
  simp [distance, perClassIoU, iouAll, distEntryOf, meanQ, List.range_succ,
    iouClass, hu, hi]
  norm_num [smooth]

/-! ### `generate_click_prompt` (utils.py lines 10-49)

A mask is a list of rows of pixel values; the random draws of
`torch.randint` are explicit parameters. -/

/-- The value of mask `m` at `(row, col)`. -/
def mval (m : List (List ℚ)) (p : ℕ × ℕ) : ℚ :=
  (m.getD p.1 []).getD p.2 0

/-- The indices of the nonzero entries of one row (as `(row, col)` pairs). -/
def nonzeroRow (i : ℕ) (row : List ℚ) : List (ℕ × ℕ) :=
  (List.range row.length).filterMap
    (fun j => if row.getD j 0 ≠ 0 then some (i, j) else none)

/-- `torch.nonzero(msk_s)`: row-major list of the nonzero coordinates. -/
def nonzeroIndices (m : List (List ℚ)) : List (ℕ × ℕ) :=
  (List.range m.length).flatMap (fun i => nonzeroRow i (m.getD i []))

/-- One point of `generate_click_prompt` for one batch element: if the
mask has no nonzero pixel return the random pair `rr` (both components
drawn by the code from `[0, h)`) with the default label; otherwise return
the `r`-th nonzero coordinate and the mask's value there. -/
def generate_click_point (m : List (List ℚ)) (ptLabel : ℚ) (r : ℕ)
    (rr : ℕ × ℕ) : (ℕ × ℕ) × ℚ :=
  let idx := nonzeroIndices m
  if idx.isEmpty then (rr, ptLabel)
  else
    let p := idx.getD r (0, 0)
    (p, mval m p)

theorem mem_nonzeroIndices {m : List (List ℚ)} {p : ℕ × ℕ} :
    p ∈ nonzeroIndices m ↔
      p.1 < m.length ∧ p.2 < (m.getD p.1 []).length ∧ mval m p ≠ 0 := by
  obtain ⟨i, j⟩ := p
  simp only [nonzeroIndices, nonzeroRow, List.mem_flatMap, List.mem_filterMap,
    List.mem_range, mval]
  constructor
  · rintro ⟨i', hi', j', hj', hcond⟩
    by_cases hnz : (m.getD i' []).getD j' 0 ≠ 0
    · rw [if_pos hnz] at hcond
      simp only [Option.some.injEq, Prod.mk.injEq] at hcond
      obtain ⟨rfl, rfl⟩ := hcond
      exact ⟨hi', hj', hnz⟩
    · rw [if_neg hnz] at hcond
      cases hcond
  · rintro ⟨hi, hj, hnz⟩
    exact ⟨i, hi, j, hj, by rw [if_pos hnz]⟩

/-- C6: on a mask with at least one foreground (nonzero) pixel, the
sampled point of `generate_click_prompt` lies on a foreground pixel and
its label is the mask's value at that pixel. -/
theorem click_point_on_foreground (m : List (List ℚ)) (ptLabel : ℚ)
    (r : ℕ) (rr : ℕ × ℕ)
    (hfg : ∃ i j, i < m.length ∧ j < (m.getD i []).length ∧
      (m.getD i []).getD j 0 ≠ 0)
    (hr : r < (nonzeroIndices m).length) :
    mval m (generate_click_point m ptLabel r rr).1 ≠ 0 ∧
    (generate_click_point m ptLabel r rr).2
      = mval m (generate_click_point m ptLabel r rr).1 := by
  obtain ⟨i, j, hi, hj, hnz⟩ := hfg
  have hmem : (i, j) ∈ nonzeroIndices m := mem_nonzeroIndices.mpr ⟨hi, hj, hnz⟩
  have hne : ¬ (nonzeroIndices m).isEmpty := by
    cases h : nonzeroIndices m with
    | nil => rw [h] at hmem; cases hmem
    | cons a t => simp [h]
  unfold generate_click_point
  rw [if_neg hne]
  refine ⟨?_, rfl⟩
  have hp : (nonzeroIndices m).getD r (0, 0) ∈ nonzeroIndices m := by
    rw [List.getD_eq_getElem _ _ hr]
    exact List.getElem_mem hr
  exact (mem_nonzeroIndices.mp hp).2.2

/-- Witness for C6 on the 1×2 mask `[[0, 5]]`. -/
theorem click_point_on_foreground_witness :
    mval [[0, 5]] (generate_click_point [[0, 5]] 7 0 (0, 0)).1 ≠ 0 ∧
    (generate_click_point [[0, 5]] 7 0 (0, 0)).2
      = mval [[0, 5]] (generate_click_point [[0, 5]] 7 0 (0, 0)).1 :=
  click_point_on_foreground [[0, 5]] 7 0 (0, 0)
    ⟨0, 1, by decide, by decide, by decide⟩ (by decide)

/-- C7 (code bug): for the all-zero mask of height 2 and width 1, the
random pair `(1, 1)` is a legal draw of the code (both components are
drawn from `[0, h)` with `h = 2`), yet the returned column 1 is not below
the width 1; the returned label is the supplied default. -/
theorem click_empty_mask_out_of_width :
    generate_click_point [[0], [0]] 7 0 (1, 1) = ((1, 1), 7) ∧
    (1 : ℕ) < [[(0 : ℚ)], [0]].length ∧
    ¬ ((generate_click_point [[0], [0]] 7 0 (1, 1)).1.2
        < ([[(0 : ℚ)], [0]].getD 0 []).length) := by
  refine ⟨by decide, by decide, ?_⟩
  decide

/-! ### `truncated_normal_` (utils.py lines 111-120)

The four standard-normal draws for one target element are an explicit
argument `s : Fin 4 → ℚ`. -/

/-- `(tmp < 2) & (tmp > -2)` for one sample. -/
def tnValid (q : ℚ) : Bool := decide (q < 2) && decide (-2 < q)

/-- `valid.max(-1, keepdim=True)[1]`: the index of the first `True` in
the validity mask, or 0 when the mask is all `False` (torch returns the
first maximal element of a boolean vector). -/
def tnIndex (s : Fin 4 → ℚ) : Fin 4 :=
  if tnValid (s 0) then 0
  else if tnValid (s 1) then 1
  else if tnValid (s 2) then 2
  else if tnValid (s 3) then 3
  else 0

/-- `truncated_normal_`: gather the selected sample, multiply by `std`,
add `mean`. -/
def truncated_normal_ (mean std : ℚ) (s : Fin 4 → ℚ) : ℚ :=
  s (tnIndex s) * std + mean

/-- The boolean argmax selects index 0 when sample 0 is valid. -/
theorem tn_first0 (s : Fin 4 → ℚ) (h0 : tnValid (s 0) = true) :
    tnIndex s = 0 := by
  simp [tnIndex, h0]

theorem tn_first1 (s : Fin 4 → ℚ) (h0 : tnValid (s 0) = false)
    (h1 : tnValid (s 1) = true) : tnIndex s = 1 := by
  simp [tnIndex, h0, h1]

theorem tn_first2 (s : Fin 4 → ℚ) (h0 : tnValid (s 0) = false)
    (h1 : tnValid (s 1) = false) (h2 : tnValid (s 2) = true) :
    tnIndex s = 2 := by
  simp [tnIndex, h0, h1, h2]

theorem tn_first3 (s : Fin 4 → ℚ) (h0 : tnValid (s 0) = false)
    (h1 : tnValid (s 1) = false) (h2 : tnValid (s 2) = false)
    (h3 : tnValid (s 3) = true) : tnIndex s = 3 := by
  simp [tnIndex, h0, h1, h2, h3]

/-- The boolean argmax of an all-false mask defaults to index 0. -/
theorem tn_none (s : Fin 4 → ℚ) (h0 : tnValid (s 0) = false)
    (h1 : tnValid (s 1) = false) (h2 : tnValid (s 2) = false)
    (h3 : tnValid (s 3) = false) : tnIndex s = 0 := by
  simp [tnIndex, h0, h1, h2, h3]

/-- C8 (amended): `truncated_normal_` keeps, among the 4 samples of an
element, the first one with magnitude below 2; when none of the 4
qualifies it keeps the FIRST drawn value (index 0, the default of the
boolean argmax), not the last; the kept value is scaled by `std` and
shifted by `mean`. -/
theorem truncated_normal_spec (mean std : ℚ) (s : Fin 4 → ℚ) :
    (∀ i : Fin 4, tnValid (s i) = true →
      (∀ j : Fin 4, j < i → tnValid (s j) = false) →
      truncated_normal_ mean std s = s i * std + mean) ∧
    ((∀ i : Fin 4, tnValid (s i) = false) →
      truncated_normal_ mean std s = s 0 * std + mean) := by
  constructor
  · intro i hvi hmin
    fin_cases i
    · rw [truncated_normal_, tn_first0 s hvi]
      rfl
    · rw [truncated_normal_, tn_first1 s (hmin 0 (by decide)) hvi]
      rfl
    · rw [truncated_normal_,
        tn_first2 s (hmin 0 (by decide)) (hmin 1 (by decide)) hvi]
      rfl
    · rw [truncated_normal_,
        tn_first3 s (hmin 0 (by decide)) (hmin 1 (by decide))
          (hmin 2 (by decide)) hvi]
      rfl
  · intro hall
    rw [truncated_normal_, tn_none s (hall 0) (hall 1) (hall 2) (hall 3)]

/-- Witness for C8: samples `(9, 1, 0, 0)`, std 2, mean 5 — sample 0 is
invalid, sample 1 is the first valid one and is kept. -/
theorem truncated_normal_spec_witness :
    truncated_normal_ 5 2 (fun i => if i = 0 then 9 else if i = 1 then 1 else 0)
      = (fun i : Fin 4 => if i = 0 then (9 : ℚ) else if i = 1 then 1 else 0) 1 * 2 + 5 :=
  (truncated_normal_spec 5 2 _).1 1 (by decide) (by decide)

/-- C8 (counterexample): when all 4 samples are invalid (samples
`(3, 4, 5, 6)` with mean 0, std 1), the code keeps the first drawn value
3, not the last drawn value 6 that the claim predicts. -/
theorem truncated_normal_all_invalid_keeps_first :
    truncated_normal_ 0 1 (fun i => if i = 0 then 3 else if i = 1 then 4
      else if i = 2 then 5 else 6) = 3 ∧ (3 : ℚ) ≠ 6 := by
  constructor
  · rw [truncated_normal_,
      tn_none _ (by decide) (by decide) (by decide) (by decide)]
    norm_num
  · norm_num

/-! ### `random_box` (utils.py lines 51-98), pre-noise box selection

Connected-component labeling and `regionprops` are external collaborators
(spec section 6); a `Region` is their output: a bounding box
`(min_row, min_col, max_row, max_col)` and a pixel area. -/

structure Region where
  bbox : ℕ × ℕ × ℕ × ℕ
  area : ℕ
deriving DecidableEq

/-- The comparison of `sorted(regions, key=lambda x: x.area, reverse=True)`. -/
def regionGE (a b : Region) : Prop := b.area ≤ a.area

instance : DecidableRel regionGE := fun a b => Nat.decLe b.area a.area

instance : IsTotal Region regionGE := ⟨by
  intro a b
  unfold regionGE
  exact le_total b.area a.area⟩

instance : IsTrans Region regionGE := ⟨fun _ _ _ h1 h2 => le_trans h2 h1⟩

/-- Stable descending-area sort of the regions. -/
def sortRegions (rs : List Region) : List Region := rs.insertionSort regionGE

/-- The boxes one batch element of `random_box` selects before noise is
added: all-zero boxes when there is no region; the `box_num`
largest-area boxes when there are at least `box_num` regions; otherwise
the label-order boxes padded by cyclic repetition. -/
def random_box_prenoise (regions : List Region) (box_num : ℕ) :
    List (ℕ × ℕ × ℕ × ℕ) :=
  let boxes := regions.map Region.bbox
  if boxes.length = 0 then List.replicate box_num (0, 0, 0, 0)
  else if box_num ≤ boxes.length then
    ((sortRegions regions).take box_num).map Region.bbox
  else
    boxes ++ (List.range (box_num - boxes.length)).map
      (fun i => boxes.getD (i % boxes.length) (0, 0, 0, 0))

/-- A small and a large component, the small one first in label order. -/
def rSmall : Region := ⟨(0, 0, 1, 1), 1⟩

def rBig : Region := ⟨(2, 0, 4, 4), 8⟩

/-- C9 (counterexample): with two components (small one first in label
order) and `box_num = 3`, the code pads the UNSORTED label-order boxes
cyclically, producing `[small, big, small]` — not the claim's
area-descending `[big, small, big]`. -/
theorem random_box_unsorted_pad :
    random_box_prenoise [rSmall, rBig] 3
      = [rSmall.bbox, rBig.bbox, rSmall.bbox] ∧
    random_box_prenoise [rSmall, rBig] 3
      ≠ [rBig.bbox, rSmall.bbox, rBig.bbox] := by
  constructor
  · decide
  · decide

/-- C9 (amended): per batch element, `random_box` pre-noise boxes are:
all-zero boxes when no component exists; the `box_num` largest-area
component boxes in area-descending order when at least `box_num`
components exist; and, when fewer components than `box_num` exist, the
boxes in LABEL order (not sorted) repeated cyclically
(`out[i] = boxes[i % len(boxes)]`). -/
theorem random_box_prenoise_spec (regions : List Region) (box_num : ℕ) :
    (regions = [] →
      random_box_prenoise regions box_num
        = List.replicate box_num (0, 0, 0, 0)) ∧
    (regions ≠ [] → box_num ≤ regions.length →
      random_box_prenoise regions box_num
          = ((sortRegions regions).take box_num).map Region.bbox ∧
      (sortRegions regions).Sorted regionGE ∧
      List.Perm (sortRegions regions) regions ∧
      (∀ a ∈ (sortRegions regions).take box_num,
        ∀ b ∈ (sortRegions regions).drop box_num, b.area ≤ a.area)) ∧
    (regions ≠ [] → regions.length < box_num →
      (random_box_prenoise regions box_num).length = box_num ∧
      ∀ i, i < box_num →
        (random_box_prenoise regions box_num).getD i (0, 0, 0, 0)
          = (regions.map Region.bbox).getD (i % regions.length)
              (0, 0, 0, 0)) := by
  refine ⟨?_, ?_, ?_⟩
  · intro h
    subst h
    rfl
  · intro hne hge
    have hlen : (regions.map Region.bbox).length = regions.length :=
      List.length_map _ _
    have hn0 : ¬ (regions.map Region.bbox).length = 0 := by
      rw [hlen]
      exact fun h => hne (List.length_eq_zero.mp h)
    have hcond : box_num ≤ (regions.map Region.bbox).length := by
      rw [hlen]; exact hge
    refine ⟨?_, List.sorted_insertionSort regionGE regions,
      List.perm_insertionSort regionGE regions, ?_⟩
    · unfold random_box_prenoise
      rw [if_neg hn0, if_pos hcond]
    · intro a ha b hb
      exact (List.sorted_insertionSort regionGE
        regions).rel_of_mem_take_of_mem_drop ha hb
  · intro hne hlt
    have hlen : (regions.map Region.bbox).length = regions.length :=
      List.length_map _ _
    have hn0 : ¬ (regions.map Region.bbox).length = 0 := by
      rw [hlen]
      exact fun h => hne (List.length_eq_zero.mp h)
    have hcond : ¬ box_num ≤ (regions.map Region.bbox).length := by
      rw [hlen]; omega
    have hres : random_box_prenoise regions box_num
        = regions.map Region.bbox ++ (List.range
            (box_num - (regions.map Region.bbox).length)).map
          (fun i => (regions.map Region.bbox).getD
            (i % (regions.map Region.bbox).length) (0, 0, 0, 0)) := by
      unfold random_box_prenoise
      rw [if_neg hn0, if_neg hcond]
    simp only [hlen] at hres
    have hL : 0 < regions.length := List.length_pos.mpr hne
    constructor
    · rw [hres]
      simp only [List.length_append, List.length_map, List.length_range]
      omega
    · intro i hi
      rw [hres]
      by_cases hcase : i < regions.length
      · rw [List.getD_append _ _ _ _ (by rw [List.length_map]; exact hcase)]
        rw [Nat.mod_eq_of_lt hcase]
      · have hge2 : regions.length ≤ i := le_of_not_lt hcase
        rw [List.getD_append_right _ _ _ _ (by rw [List.length_map]; exact hge2)]
        rw [List.length_map]
        have hi2 : i - regions.length < box_num - regions.length := by omega
        rw [List.getD_eq_getElem _ _ (by
          simp only [List.length_map, List.length_range]
          exact hi2)]
        rw [List.getElem_map, List.getElem_range]
        have hmod : (i - regions.length) % regions.length = i % regions.length := by
          conv_rhs => rw [← Nat.sub_add_cancel hge2]
          rw [Nat.add_mod_right]
        rw [hmod]

/-- Witness for C9: the sorted-truncation case at `box_num = 1` (the
larger-area box is selected) and the cyclic-padding case at index 2 of
`box_num = 3`. -/
theorem random_box_prenoise_spec_witness :
    random_box_prenoise [rSmall, rBig] 1 = [rBig.bbox] ∧
    (random_box_prenoise [rSmall, rBig] 3).getD 2 (0, 0, 0, 0)
      = ([rSmall, rBig].map Region.bbox).getD (2 % [rSmall, rBig].length)
          (0, 0, 0, 0) := by
  constructor
  · have h := ((random_box_prenoise_spec [rSmall, rBig] 1).2.1
      (by decide) (by decide)).1
    rw [h]
    decide
  · exact ((random_box_prenoise_spec [rSmall, rBig] 3).2.2
      (by decide) (by decide)).2 2 (by decide)

/-! ### `l2_regularisation` (utils.py lines 138-149)

`W.norm(2)` is an external tensor primitive; it is abstracted as a
per-parameter function `nrm`. -/

/-- `l2_regularisation`: the accumulator starts as `None` (python) and
each parameter either initializes it or adds its norm. -/
def l2_regularisation {α : Type} (nrm : α → ℚ) (params : List α) : Option ℚ :=
  params.foldl (fun l2_reg W =>
    match l2_reg with
    | none => some (nrm W)
    | some r => some (r + nrm W)) none

theorem l2_foldl_some {α : Type} (nrm : α → ℚ) (params : List α) (r : ℚ) :
    params.foldl (fun l2_reg W =>
      match l2_reg with
      | none => some (nrm W)
      | some r => some (r + nrm W)) (some r)
      = some (r + (params.map nrm).sum) := by
  induction params generalizing r with
  | nil => simp
  | cons W t ih =>
    simp only [List.foldl_cons, List.map_cons, List.sum_cons]
    rw [ih]
    ring_nf

/-- C10: `l2_regularisation` returns `None` (not a zero scalar) for a
module with no parameters, and the sum of the per-parameter 2-norms
otherwise. -/
theorem l2_regularisation_spec {α : Type} (nrm : α → ℚ) (params : List α) :
    (params = [] → l2_regularisation nrm params = none) ∧
    (params ≠ [] →
      l2_regularisation nrm params = some ((params.map nrm).sum)) := by
  constructor
  · intro h
    subst h
    rfl
  · intro hne
    cases params with
    | nil => exact absurd rfl hne
    | cons W t =>
      unfold l2_regularisation
      simp only [List.foldl_cons]
      rw [l2_foldl_some]
      simp

/-- Witness for C10: no parameters gives `None`; parameters `[2, 3]`
with the identity norm give `Some 5`. -/
theorem l2_regularisation_spec_witness :
    l2_regularisation (fun q => q) ([] : List ℚ) = none ∧
    l2_regularisation (fun q => q) [(2 : ℚ), 3] = some (([(2 : ℚ), 3].map (fun q => q)).sum) :=
  ⟨(l2_regularisation_spec (fun q => q) []).1 rfl,
    (l2_regularisation_spec (fun q => q) [(2 : ℚ), 3]).2 (by simp)⟩
